import Mathlib

/-!
Verification development for the freqshow FFT comparison harness
(`notebooks/fft_comparison.py`).

The file shallowly embeds the numerical core of the script:
`numpy_spectrum`, `numpy_low_pass_mask`, the derived high-pass mask,
`numpy_filter`, and the per-pixel diff statistics computed in `compare`.
Images are 8-bit grayscale arrays with positive dimensions; pixel grids
are modelled as total functions on natural-number indices together with
explicit dimensions, and all floating-point arithmetic is modelled in
exact real arithmetic.  The NumPy transform primitives (`np.fft.fft2`,
`np.fft.ifft2`, `np.fft.fftshift`, `np.fft.ifftshift`) are embedded by
their documented mathematical definitions: the standard two-dimensional
discrete Fourier transform and the half-length circular index rolls.
The one place where exact real arithmetic cannot mirror IEEE floats —
division by a zero maximum in the spectrum normalization, which yields
NaN/Inf — is modelled explicitly by an `Option`-valued division.
-/

namespace FreqShow

/-- A grayscale image: 8-bit intensities with dimensions `(h, w)`, `h, w ≥ 1`
(data-model precondition of the spec).  The pixel grid is a total function;
only indices `i < h`, `j < w` are meaningful. -/
structure GrayImage where
  h : ℕ
  w : ℕ
  hpos : 0 < h
  wpos : 0 < w
  pix : ℕ → ℕ → ℕ

/-- The spectrum output: a grid of 8-bit values, where `none` stands for a
non-finite float (NaN/Inf) that was cast to `uint8`, i.e. a garbage pixel. -/
structure SpectrumImage where
  h : ℕ
  w : ℕ
  pix : ℕ → ℕ → Option ℕ

/-- Diff statistics for one labeled pair of images, as printed by `compare`:
`diff.max()`, `diff.mean()`, `np.sum(diff > 1)`. -/
structure ComparisonResult where
  max_diff : ℕ
  mean_diff : ℚ
  count_above : ℕ
deriving DecidableEq

/-! ## The NumPy transform primitives (documented semantics) -/

/-- The DFT twiddle factor `exp(2πi·a/N)`; `np.fft` uses it with negative
exponent arguments in the forward direction. -/
noncomputable def dftKer (N : ℕ) (a : ℤ) : ℂ :=
  Complex.exp (2 * Real.pi * Complex.I * a / N)

/-- `np.fft.fft2` on an `h × w` grid:
`F[k,l] = Σ_m Σ_n f[m,n]·exp(-2πi·k·m/h)·exp(-2πi·l·n/w)`. -/
noncomputable def fft2 (h w : ℕ) (f : ℕ → ℕ → ℂ) : ℕ → ℕ → ℂ :=
  fun k l => ∑ m in Finset.range h, ∑ n in Finset.range w,
    f m n * dftKer h (-((k : ℤ) * m)) * dftKer w (-((l : ℤ) * n))

/-- `np.fft.ifft2`:
`f[m,n] = (1/(h·w))·Σ_k Σ_l F[k,l]·exp(2πi·k·m/h)·exp(2πi·l·n/w)`. -/
noncomputable def ifft2 (h w : ℕ) (F : ℕ → ℕ → ℂ) : ℕ → ℕ → ℂ :=
  fun m n => 1 / ((h : ℂ) * w) * ∑ k in Finset.range h, ∑ l in Finset.range w,
    F k l * dftKer h ((k : ℤ) * m) * dftKer w ((l : ℤ) * n)

/-- `np.fft.fftshift` on both axes: circular roll by `⌊h/2⌋` and `⌊w/2⌋`,
moving the zero-frequency entry to the array center. -/
def fftshift2 {α : Type} (h w : ℕ) (F : ℕ → ℕ → α) : ℕ → ℕ → α :=
  fun i j => F ((i + (h - h / 2)) % h) ((j + (w - w / 2)) % w)

/-- `np.fft.ifftshift` on both axes: circular roll by `-⌊h/2⌋` and `-⌊w/2⌋`,
the exact inverse of `fftshift2`. -/
def ifftshift2 {α : Type} (h w : ℕ) (F : ℕ → ℕ → α) : ℕ → ℕ → α :=
  fun i j => F ((i + h / 2) % h) ((j + w / 2) % w)

/-- IEEE division as used in `magnitude / magnitude.max()`: a zero divisor
produces a non-finite float (NaN for `0/0`, ±Inf otherwise), modelled as
`none`; otherwise the exact quotient. -/
noncomputable def npDiv (x y : ℝ) : Option ℝ :=
  if y = 0 then none else some (x / y)

/-! ## SpectrumComputer: `numpy_spectrum` -/

/-- `img / 255.0`: the input image normalized to `[0,1]`. -/
noncomputable def signal (img : GrayImage) : ℕ → ℕ → ℂ :=
  fun i j => (((img.pix i j : ℝ) / 255 : ℝ) : ℂ)

/-- `np.log1p(np.abs(np.fft.fftshift(np.fft.fft2(img / 255.0))))`. -/
noncomputable def spectrumMag (img : GrayImage) : ℕ → ℕ → ℝ :=
  fun k l =>
    Real.log (1 + Complex.abs (fftshift2 img.h img.w (fft2 img.h img.w (signal img)) k l))

/-- `magnitude.max()` over the (nonempty) pixel grid. -/
noncomputable def spectrumMax (img : GrayImage) : ℝ :=
  ((Finset.range img.h) ×ˢ (Finset.range img.w)).sup'
    ((Finset.nonempty_range_iff.mpr img.hpos.ne').product
      (Finset.nonempty_range_iff.mpr img.wpos.ne'))
    (fun p => spectrumMag img p.1 p.2)

/-- `(magnitude / magnitude.max() * 255).astype(np.uint8)`.  The division is
not guarded: a zero maximum produces non-finite pixels (`none`). -/
noncomputable def numpy_spectrum (img : GrayImage) : SpectrumImage :=
  { h := img.h, w := img.w,
    pix := fun k l =>
      (npDiv (spectrumMag img k l) (spectrumMax img)).map (fun t => ⌊t * 255⌋₊) }

/-! ## MaskBuilder: `numpy_low_pass_mask` and the derived high-pass mask -/

/-- `np.sqrt(w * w + h * h)`. -/
noncomputable def diagonal (h w : ℕ) : ℝ :=
  Real.sqrt ((w : ℝ) * w + (h : ℝ) * h)

/-- `max(0.0, cutoff - smoothing / 2) * diagonal`. -/
noncomputable def r_in (h w : ℕ) (cutoff smoothing : ℝ) : ℝ :=
  max 0 (cutoff - smoothing / 2) * diagonal h w

/-- `(cutoff + smoothing / 2) * diagonal`. -/
noncomputable def r_out (h w : ℕ) (cutoff smoothing : ℝ) : ℝ :=
  (cutoff + smoothing / 2) * diagonal h w

/-- Squared Euclidean distance of pixel `(y, x)` from the real-valued center
`((h-1)/2, (w-1)/2)`: `(x - cx)**2 + (y - cy)**2`. -/
noncomputable def d2 (h w : ℕ) (y x : ℕ) : ℝ :=
  ((x : ℝ) - ((w : ℝ) - 1) / 2) ^ 2 + ((y : ℝ) - ((h : ℝ) - 1) / 2) ^ 2

/-- The value selected by the nested `np.where`: `1` where `d2 <= r_in**2`,
else `0` where `d2 >= r_out**2`, else the quadratic rolloff
`((r_out**2 - d2) / (r_out**2 - r_in**2)) ** 2`. -/
noncomputable def maskVal (rin2 rout2 d : ℝ) : ℝ :=
  if d ≤ rin2 then 1
  else if rout2 ≤ d then 0
  else ((rout2 - d) / (rout2 - rin2)) ^ 2

/-- `numpy_low_pass_mask(h, w, cutoff, smoothing)` as a pixel function. -/
noncomputable def numpy_low_pass_mask (h w : ℕ) (cutoff smoothing : ℝ) : ℕ → ℕ → ℝ :=
  fun y x =>
    maskVal (r_in h w cutoff smoothing ^ 2) (r_out h w cutoff smoothing ^ 2) (d2 h w y x)

/-- `hp_mask = 1.0 - lp_mask` (line 93 of the script). -/
noncomputable def numpy_high_pass_mask (h w : ℕ) (cutoff smoothing : ℝ) : ℕ → ℕ → ℝ :=
  fun y x => 1 - numpy_low_pass_mask h w cutoff smoothing y x

/-! ## FrequencyFilter: `numpy_filter` -/

/-- The real-valued filter output before quantization:
`np.fft.ifft2(np.fft.ifftshift(np.fft.fftshift(np.fft.fft2(img/255.0)) * mask)).real * 255`. -/
noncomputable def filterPre (img : GrayImage) (mask : ℕ → ℕ → ℝ) : ℕ → ℕ → ℝ :=
  fun m n =>
    (ifft2 img.h img.w
      (ifftshift2 img.h img.w
        (fun k l =>
          fftshift2 img.h img.w (fft2 img.h img.w (signal img)) k l * (mask k l : ℂ)))
      m n).re * 255

/-- `np.clip(result * 255, 0, 255).astype(np.uint8)`: clamp to `[0,255]` and
truncate to an integer. -/
noncomputable def numpy_filter (img : GrayImage) (mask : ℕ → ℕ → ℝ) : GrayImage :=
  { h := img.h, w := img.w, hpos := img.hpos, wpos := img.wpos,
    pix := fun m n => ⌊min (max (filterPre img mask m n) 0) 255⌋₊ }

/-! ## Comparator: the diff statistics of `compare` -/

/-- NumPy broadcasting of one axis: equal dims pass through, a dim of `1` is
stretched to the other, anything else fails (`ValueError`). -/
def bcastDim (a b : ℕ) : Option ℕ :=
  if a = b then some a else if a = 1 then some b else if b = 1 then some a else none

/-- Index into an axis of length `d` from a broadcast coordinate. -/
def bIdx (d i : ℕ) : ℕ :=
  if d = 1 then 0 else i

/-- One entry of `np.abs(np_img.astype(int) - rs_img.astype(int))`: pixels are
widened to signed integers before subtracting. -/
def diffAt (A B : GrayImage) (i j : ℕ) : ℕ :=
  ((A.pix (bIdx A.h i) (bIdx A.w j) : ℤ) - (B.pix (bIdx B.h i) (bIdx B.w j) : ℤ)).natAbs

/-- The statistics block of `compare`: `diff.max()`, `diff.mean()`,
`np.sum(diff > 1)`.  The subtraction follows NumPy broadcasting; shapes that
do not broadcast raise a `ValueError`, modelled as `none`. -/
def compareStats (A B : GrayImage) : Option ComparisonResult :=
  (bcastDim A.h B.h).bind fun H =>
    (bcastDim A.w B.w).bind fun W =>
      some
        { max_diff := ((Finset.range H) ×ˢ (Finset.range W)).sup (fun p => diffAt A B p.1 p.2),
          mean_diff :=
            (∑ p in (Finset.range H) ×ˢ (Finset.range W), (diffAt A B p.1 p.2 : ℚ)) / (H * W),
          count_above :=
            (((Finset.range H) ×ˢ (Finset.range W)).filter (fun p => 1 < diffAt A B p.1 p.2)).card }

/-! ## Concrete inputs used by counterexamples and witnesses -/

/-- The 1×1 all-zero image. -/
def img0 : GrayImage := ⟨1, 1, Nat.one_pos, Nat.one_pos, fun _ _ => 0⟩

/-- A 1×4 image with a single bright pixel: `[255, 0, 0, 0]`. -/
def img4 : GrayImage := ⟨1, 4, Nat.one_pos, by norm_num, fun _ j => if j = 0 then 255 else 0⟩

/-- A 1×2 image `[0, 255]`. -/
def imgRow : GrayImage := ⟨1, 2, Nat.one_pos, by norm_num, fun _ j => if j = 0 then 0 else 255⟩

/-- A 1×1 all-zero image (second operand of the broadcast counterexample). -/
def imgOne : GrayImage := ⟨1, 1, Nat.one_pos, Nat.one_pos, fun _ _ => 0⟩

/-- A 2×2 all-zero image. -/
def imgTwoSq : GrayImage := ⟨2, 2, by norm_num, by norm_num, fun _ _ => 0⟩

/-- A 3×2 all-zero image. -/
def imgThreeTwo : GrayImage := ⟨3, 2, by norm_num, by norm_num, fun _ _ => 0⟩

/-- A 1×1 image with the single pixel `5`. -/
def imgFive : GrayImage := ⟨1, 1, Nat.one_pos, Nat.one_pos, fun _ _ => 5⟩

/-! # Helper lemmas -/

theorem maskVal_of_inner {rin2 rout2 d : ℝ} (h : d ≤ rin2) : maskVal rin2 rout2 d = 1 := by
  unfold maskVal
  rw [if_pos h]

theorem maskVal_of_outer {rin2 rout2 d : ℝ} (h1 : ¬ d ≤ rin2) (h2 : rout2 ≤ d) :
    maskVal rin2 rout2 d = 0 := by
  unfold maskVal
  rw [if_neg h1, if_pos h2]

theorem maskVal_of_mid {rin2 rout2 d : ℝ} (h1 : ¬ d ≤ rin2) (h2 : ¬ rout2 ≤ d) :
    maskVal rin2 rout2 d = ((rout2 - d) / (rout2 - rin2)) ^ 2 := by
  unfold maskVal
  rw [if_neg h1, if_neg h2]

theorem maskVal_nonneg (rin2 rout2 d : ℝ) : 0 ≤ maskVal rin2 rout2 d := by
  unfold maskVal
  split_ifs <;> positivity

theorem maskVal_le_one (rin2 rout2 d : ℝ) : maskVal rin2 rout2 d ≤ 1 := by
  by_cases h1 : d ≤ rin2
  · rw [maskVal_of_inner h1]
  · by_cases h2 : rout2 ≤ d
    · rw [maskVal_of_outer h1 h2]; norm_num
    · rw [maskVal_of_mid h1 h2]
      push_neg at h1 h2
      have hD : 0 < rout2 - rin2 := by linarith
      have h0 : 0 ≤ (rout2 - d) / (rout2 - rin2) := by
        apply div_nonneg <;> linarith
      have hle : (rout2 - d) / (rout2 - rin2) ≤ 1 := by
        rw [div_le_one hD]; linarith
      exact pow_le_one₀ h0 hle

theorem maskVal_antitone (rin2 rout2 : ℝ) {a b : ℝ} (hab : a ≤ b) :
    maskVal rin2 rout2 b ≤ maskVal rin2 rout2 a := by
  by_cases h1 : a ≤ rin2
  · calc maskVal rin2 rout2 b ≤ 1 := maskVal_le_one _ _ _
    _ = maskVal rin2 rout2 a := (maskVal_of_inner h1).symm
  · by_cases h2 : rout2 ≤ a
    · have hb1 : ¬ b ≤ rin2 := by push_neg at h1 ⊢; linarith
      have hb2 : rout2 ≤ b := le_trans h2 hab
      rw [maskVal_of_outer h1 h2, maskVal_of_outer hb1 hb2]
    · push_neg at h1 h2
      have hD : 0 < rout2 - rin2 := by linarith
      by_cases hb2 : rout2 ≤ b
      · calc maskVal rin2 rout2 b = 0 := maskVal_of_outer (by push_neg; linarith) hb2
        _ ≤ maskVal rin2 rout2 a := maskVal_nonneg _ _ _
      · push_neg at hb2
        rw [maskVal_of_mid (by push_neg; linarith) (by push_neg; exact hb2),
          maskVal_of_mid (by push_neg; exact h1) (by push_neg; exact h2)]
        have hle : (rout2 - b) / (rout2 - rin2) ≤ (rout2 - a) / (rout2 - rin2) := by
          rw [div_le_div_right hD]; linarith
        refine pow_le_pow_left₀ ?_ hle 2
        apply div_nonneg <;> linarith

theorem rin_sq (h w : ℕ) (c s : ℝ) :
    r_in h w c s ^ 2 = max 0 (c - s / 2) ^ 2 * ((w : ℝ) * w + (h : ℝ) * h) := by
  unfold r_in diagonal
  rw [mul_pow, Real.sq_sqrt (by positivity)]

theorem rout_sq (h w : ℕ) (c s : ℝ) :
    r_out h w c s ^ 2 = (c + s / 2) ^ 2 * ((w : ℝ) * w + (h : ℝ) * h) := by
  unfold r_out diagonal
  rw [mul_pow, Real.sq_sqrt (by positivity)]

theorem rin_nonneg (h w : ℕ) (c s : ℝ) : 0 ≤ r_in h w c s := by
  unfold r_in diagonal
  exact mul_nonneg (le_max_left _ _) (Real.sqrt_nonneg _)

/-! # Claim theorems: MaskBuilder -/

/-- C2: with `smoothing == 0` the two radii coincide and the mask produced by
`numpy_low_pass_mask` is a hard step at radius `cutoff * diagonal`: value `1`
exactly where the squared distance is at most the squared radius, `0`
everywhere else; no rolloff quotient is ever selected. -/
theorem mask_smoothing_zero (h w : ℕ) (c : ℝ) (hh : 1 ≤ h) (hw : 1 ≤ w)
    (hc0 : 0 < c) (hc1 : c ≤ 1 / 2) (y x : ℕ) :
    numpy_low_pass_mask h w c 0 y x =
      if d2 h w y x ≤ (c * diagonal h w) ^ 2 then 1 else 0 := by
  have hin : r_in h w c 0 = c * diagonal h w := by
    unfold r_in
    norm_num [max_eq_right hc0.le]
  have hout : r_out h w c 0 = c * diagonal h w := by
    unfold r_out
    norm_num
  unfold numpy_low_pass_mask maskVal
  rw [hin, hout]
  split_ifs with h1 h2
  · rfl
  · rfl
  · push_neg at h1 h2
    exact absurd h2 (by push_neg; linarith)

/-- C2 witness: a concrete instance of the hard-step theorem. -/
theorem mask_smoothing_zero_witness :
    numpy_low_pass_mask 4 4 (1 / 4) 0 0 0 =
      if d2 4 4 0 0 ≤ (1 / 4 * diagonal 4 4) ^ 2 then 1 else 0 :=
  mask_smoothing_zero 4 4 (1 / 4) (by norm_num) (by norm_num) (by norm_num) (by norm_num) 0 0

/-- C5: with a positive transition band (`r_out > r_in`) the mask takes value
`1` where `d2 ≤ r_in²`, `0` where `d2 ≥ r_out²`, and the quadratic rolloff
`((r_out² - d2)/(r_out² - r_in²))²` strictly in between, with
`r_in = max(0, cutoff - smoothing/2)·diagonal`,
`r_out = (cutoff + smoothing/2)·diagonal`, `diagonal = sqrt(w² + h²)`. -/
theorem mask_branches (h w : ℕ) (c s : ℝ) (hh : 1 ≤ h) (hw : 1 ≤ w)
    (hc0 : 0 < c) (hc1 : c ≤ 1 / 2) (hs : 0 ≤ s)
    (hro : r_in h w c s < r_out h w c s) (y x : ℕ) :
    (d2 h w y x ≤ r_in h w c s ^ 2 → numpy_low_pass_mask h w c s y x = 1) ∧
    (r_out h w c s ^ 2 ≤ d2 h w y x → numpy_low_pass_mask h w c s y x = 0) ∧
    (r_in h w c s ^ 2 < d2 h w y x → d2 h w y x < r_out h w c s ^ 2 →
      numpy_low_pass_mask h w c s y x =
        ((r_out h w c s ^ 2 - d2 h w y x) /
          (r_out h w c s ^ 2 - r_in h w c s ^ 2)) ^ 2) := by
  have hsq : r_in h w c s ^ 2 < r_out h w c s ^ 2 :=
    pow_lt_pow_left₀ hro (rin_nonneg h w c s) (by norm_num)
  refine ⟨fun hd => ?_, fun hd => ?_, fun hd1 hd2 => ?_⟩
  · unfold numpy_low_pass_mask maskVal
    rw [if_pos hd]
  · unfold numpy_low_pass_mask maskVal
    rw [if_neg (by push_neg; linarith), if_pos hd]
  · unfold numpy_low_pass_mask maskVal
    rw [if_neg (by push_neg; linarith), if_neg (by push_neg; linarith)]

/-- C5 witness: the three branches at concrete parameters. -/
theorem mask_branches_witness :
    (d2 4 4 0 0 ≤ r_in 4 4 (1 / 4) (1 / 4) ^ 2 →
      numpy_low_pass_mask 4 4 (1 / 4) (1 / 4) 0 0 = 1) ∧
    (r_out 4 4 (1 / 4) (1 / 4) ^ 2 ≤ d2 4 4 0 0 →
      numpy_low_pass_mask 4 4 (1 / 4) (1 / 4) 0 0 = 0) ∧
    (r_in 4 4 (1 / 4) (1 / 4) ^ 2 < d2 4 4 0 0 → d2 4 4 0 0 < r_out 4 4 (1 / 4) (1 / 4) ^ 2 →
      numpy_low_pass_mask 4 4 (1 / 4) (1 / 4) 0 0 =
        ((r_out 4 4 (1 / 4) (1 / 4) ^ 2 - d2 4 4 0 0) /
          (r_out 4 4 (1 / 4) (1 / 4) ^ 2 - r_in 4 4 (1 / 4) (1 / 4) ^ 2)) ^ 2) :=
  mask_branches 4 4 (1 / 4) (1 / 4) (by norm_num) (by norm_num) (by norm_num) (by norm_num)
    (by norm_num)
    (by
      unfold r_in r_out diagonal
      have h32 : (0 : ℝ) < Real.sqrt (((4 : ℕ) : ℝ) * ((4 : ℕ) : ℝ) + ((4 : ℕ) : ℝ) * ((4 : ℕ) : ℝ)) := by
        apply Real.sqrt_pos.mpr; norm_num
      rw [show max (0 : ℝ) (1 / 4 - 1 / 4 / 2) = 1 / 8 by norm_num]
      exact mul_lt_mul_of_pos_right (by norm_num) h32) 0 0

/-- C6: the high-pass mask is `1 - low_pass_mask` by construction, hence the
two masks sum to exactly `1` at every pixel, for all dimensions and
parameters. -/
theorem mask_complementary (h w : ℕ) (c s : ℝ) (y x : ℕ) :
    numpy_high_pass_mask h w c s y x = 1 - numpy_low_pass_mask h w c s y x ∧
    numpy_low_pass_mask h w c s y x + numpy_high_pass_mask h w c s y x = 1 := by
  constructor
  · rfl
  · unfold numpy_high_pass_mask
    ring

/-- C7: mask values always lie in `[0,1]`; the value at a pixel is a function
of its squared distance from the center only (radial symmetry); and it is
monotonically non-increasing as that distance grows. -/
theorem mask_bounds_radial_monotone (h w : ℕ) (c s : ℝ) (y x y' x' : ℕ) :
    (0 ≤ numpy_low_pass_mask h w c s y x ∧ numpy_low_pass_mask h w c s y x ≤ 1) ∧
    (d2 h w y x = d2 h w y' x' →
      numpy_low_pass_mask h w c s y x = numpy_low_pass_mask h w c s y' x') ∧
    (d2 h w y x ≤ d2 h w y' x' →
      numpy_low_pass_mask h w c s y' x' ≤ numpy_low_pass_mask h w c s y x) := by
  refine ⟨⟨maskVal_nonneg _ _ _, maskVal_le_one _ _ _⟩, fun he => ?_, fun hle => ?_⟩
  · unfold numpy_low_pass_mask
    rw [he]
  · exact maskVal_antitone _ _ hle

/-- C7 witness: monotonicity at concrete pixels of a concrete mask. -/
theorem mask_bounds_radial_monotone_witness :
    numpy_low_pass_mask 4 4 (1 / 4) 0 0 0 ≤ numpy_low_pass_mask 4 4 (1 / 4) 0 1 1 :=
  (mask_bounds_radial_monotone 4 4 (1 / 4) 0 1 1 0 0).2.2
    (by unfold d2; norm_num)

/-! # Claim theorems: Comparator -/

theorem bcastDim_self (a : ℕ) : bcastDim a a = some a := by
  unfold bcastDim
  rw [if_pos rfl]

theorem bIdx_of_lt {d i : ℕ} (hi : i < d) : bIdx d i = i := by
  unfold bIdx
  split_ifs with h
  · omega
  · rfl

/-- C3 counterexample: two images of different dimensions (1×2 and 1×1) are
compared without any error — NumPy broadcasting silently stretches the 1×1
operand and full statistics are produced. -/
theorem compare_mismatch_cex :
    imgRow.w ≠ imgOne.w ∧
    compareStats imgRow imgOne = some ⟨255, 255 / 2, 1⟩ := by
  refine ⟨by decide, ?_⟩
  have h1 : bcastDim imgRow.h imgOne.h = some 1 := by decide
  have h2 : bcastDim imgRow.w imgOne.w = some 2 := by decide
  unfold compareStats
  rw [h1, h2, Option.some_bind, Option.some_bind]
  have hset : (Finset.range 1) ×ˢ (Finset.range 2) = {(0, 0), (0, 1)} := by decide
  have hd0 : diffAt imgRow imgOne 0 0 = 0 := by decide
  have hd1 : diffAt imgRow imgOne 0 1 = 255 := by decide
  refine congrArg some ?_
  rw [ComparisonResult.mk.injEq]
  refine ⟨by decide, ?_, by decide⟩
  rw [hset, Finset.sum_insert (by decide), Finset.sum_singleton]
  norm_num [hd0, hd1]

/-- C3 amended: only when the differing axis cannot be broadcast (neither
side has extent 1) does the subtraction fail; then no statistics at all are
produced.  Mismatched dimensions where one side is `1` are silently broadcast
(see the counterexample). -/
theorem compare_mismatch_not_broadcastable (A B : GrayImage)
    (hbad : (A.h ≠ B.h ∧ A.h ≠ 1 ∧ B.h ≠ 1) ∨ (A.w ≠ B.w ∧ A.w ≠ 1 ∧ B.w ≠ 1)) :
    compareStats A B = none := by
  rcases hbad with ⟨h1, h2, h3⟩ | ⟨h1, h2, h3⟩
  · have hb : bcastDim A.h B.h = none := by
      unfold bcastDim
      rw [if_neg h1, if_neg h2, if_neg h3]
    unfold compareStats
    rw [hb]
    rfl
  · have hb : bcastDim A.w B.w = none := by
      unfold bcastDim
      rw [if_neg h1, if_neg h2, if_neg h3]
    unfold compareStats
    rw [hb]
    cases bcastDim A.h B.h <;> rfl

/-- C3 witness: a 2×2 against a 3×2 image aborts with no statistics. -/
theorem compare_mismatch_not_broadcastable_witness :
    compareStats imgTwoSq imgThreeTwo = none :=
  compare_mismatch_not_broadcastable imgTwoSq imgThreeTwo
    (Or.inl (by refine ⟨?_, ?_, ?_⟩ <;> decide))

/-- C8: comparing an image against itself raised by one gray level yields
`max_diff = 1` and, because counting uses strict exceedance (`diff > 1`),
`count_above_threshold = 0` (and `mean_diff = 1`). -/
theorem compare_plus_one (A : GrayImage) (hb : ∀ i j, A.pix i j ≤ 254) :
    compareStats A ⟨A.h, A.w, A.hpos, A.wpos, fun i j => A.pix i j + 1⟩ =
      some ⟨1, 1, 0⟩ := by
  unfold compareStats
  rw [bcastDim_self, bcastDim_self, Option.some_bind, Option.some_bind]
  have hdiff : ∀ i j : ℕ,
      diffAt A ⟨A.h, A.w, A.hpos, A.wpos, fun i j => A.pix i j + 1⟩ i j = 1 := by
    intro i j
    show ((A.pix (bIdx A.h i) (bIdx A.w j) : ℤ) -
      ((A.pix (bIdx A.h i) (bIdx A.w j) + 1 : ℕ) : ℤ)).natAbs = 1
    omega
  have hne : ((Finset.range A.h) ×ˢ (Finset.range A.w)).Nonempty :=
    (Finset.nonempty_range_iff.mpr A.hpos.ne').product
      (Finset.nonempty_range_iff.mpr A.wpos.ne')
  refine congrArg some ?_
  rw [ComparisonResult.mk.injEq]
  refine ⟨?_, ?_, ?_⟩
  · rw [show (fun p : ℕ × ℕ =>
        diffAt A ⟨A.h, A.w, A.hpos, A.wpos, fun i j => A.pix i j + 1⟩ p.1 p.2) =
        fun _ => 1 from funext fun p => hdiff p.1 p.2]
    exact Finset.sup_const hne 1
  · rw [Finset.sum_congr rfl fun p _ => by rw [hdiff p.1 p.2]]
    rw [Finset.sum_const, Finset.card_product, Finset.card_range, Finset.card_range,
      nsmul_eq_mul]
    have hz : ((A.h : ℚ)) * (A.w : ℚ) ≠ 0 := by
      have h1 := A.hpos.ne'
      have h2 := A.wpos.ne'
      positivity
    push_cast
    rw [mul_one, div_self hz]
  · have hemp : ((Finset.range A.h) ×ˢ (Finset.range A.w)).filter
        (fun p => 1 < diffAt A ⟨A.h, A.w, A.hpos, A.wpos, fun i j => A.pix i j + 1⟩ p.1 p.2)
        = ∅ := by
      apply Finset.filter_false_of_mem
      intro p _
      rw [hdiff p.1 p.2]
      omega
    rw [hemp, Finset.card_empty]

/-- C8 witness: the 1×1 image with pixel value 5. -/
theorem compare_plus_one_witness :
    compareStats imgFive ⟨imgFive.h, imgFive.w, imgFive.hpos, imgFive.wpos,
        fun i j => imgFive.pix i j + 1⟩ = some ⟨1, 1, 0⟩ :=
  compare_plus_one imgFive (fun _ _ => by norm_num [imgFive])

/-- C10: for equal-sized images the comparator widens both pixels to signed
integers, so each per-pixel difference is the exact `|a - b|` (never a wrapped
`uint8` difference), and `max_diff`, `mean_diff` and the strict count are
computed from these exact differences. -/
theorem compare_widens (h w : ℕ) (hh : 0 < h) (hw : 0 < w) (pA pB : ℕ → ℕ → ℕ) :
    compareStats ⟨h, w, hh, hw, pA⟩ ⟨h, w, hh, hw, pB⟩ =
      some
        ⟨((Finset.range h) ×ˢ (Finset.range w)).sup
            (fun p => ((pA p.1 p.2 : ℤ) - (pB p.1 p.2 : ℤ)).natAbs),
          (∑ p in (Finset.range h) ×ˢ (Finset.range w),
            (((pA p.1 p.2 : ℤ) - (pB p.1 p.2 : ℤ)).natAbs : ℚ)) / (h * w),
          (((Finset.range h) ×ˢ (Finset.range w)).filter
            (fun p => 1 < ((pA p.1 p.2 : ℤ) - (pB p.1 p.2 : ℤ)).natAbs)).card⟩ ∧
    ∀ a b : ℕ, ((a : ℤ) - (b : ℤ)).natAbs = max a b - min a b := by
  constructor
  · unfold compareStats
    rw [bcastDim_self, bcastDim_self, Option.some_bind, Option.some_bind]
    have hdiff : ∀ p : ℕ × ℕ, p ∈ (Finset.range h) ×ˢ (Finset.range w) →
        diffAt ⟨h, w, hh, hw, pA⟩ ⟨h, w, hh, hw, pB⟩ p.1 p.2 =
          ((pA p.1 p.2 : ℤ) - (pB p.1 p.2 : ℤ)).natAbs := by
      intro p hp
      obtain ⟨hp1, hp2⟩ := Finset.mem_product.mp hp
      rw [Finset.mem_range] at hp1 hp2
      show ((pA (bIdx h p.1) (bIdx w p.2) : ℤ) -
        (pB (bIdx h p.1) (bIdx w p.2) : ℤ)).natAbs = _
      rw [bIdx_of_lt hp1, bIdx_of_lt hp2]
    refine congrArg some ?_
    rw [ComparisonResult.mk.injEq]
    refine ⟨?_, ?_, ?_⟩
    · exact Finset.sup_congr rfl hdiff
    · rw [Finset.sum_congr rfl fun p hp => by rw [hdiff p hp]]
    · congr 1
      apply Finset.filter_congr
      intro p hp
      rw [hdiff p hp]
  · intro a b
    omega

/-- C10 witness: pixels 10 and 255 give the true distance 245, not the
wrapped difference 11. -/
theorem compare_widens_witness :
    compareStats ⟨1, 1, Nat.one_pos, Nat.one_pos, fun _ _ => 10⟩
        ⟨1, 1, Nat.one_pos, Nat.one_pos, fun _ _ => 255⟩ =
      some
        ⟨((Finset.range 1) ×ˢ (Finset.range 1)).sup
            (fun p => (((fun _ _ => (10 : ℕ)) p.1 p.2 : ℤ) -
              ((fun _ _ => (255 : ℕ)) p.1 p.2 : ℤ)).natAbs),
          (∑ p in (Finset.range 1) ×ˢ (Finset.range 1),
            ((((fun _ _ => (10 : ℕ)) p.1 p.2 : ℤ) -
              ((fun _ _ => (255 : ℕ)) p.1 p.2 : ℤ)).natAbs : ℚ)) / (1 * 1),
          (((Finset.range 1) ×ˢ (Finset.range 1)).filter
            (fun p => 1 < (((fun _ _ => (10 : ℕ)) p.1 p.2 : ℤ) -
              ((fun _ _ => (255 : ℕ)) p.1 p.2 : ℤ)).natAbs)).card⟩ ∧
    ∀ a b : ℕ, ((a : ℤ) - (b : ℤ)).natAbs = max a b - min a b :=
  compare_widens 1 1 Nat.one_pos Nat.one_pos (fun _ _ => 10) (fun _ _ => 255)

/-! # The discrete Fourier transform: kernel lemmas and inversion -/

theorem dftKer_zero (N : ℕ) : dftKer N 0 = 1 := by
  unfold dftKer
  norm_num [Complex.exp_zero]

theorem dftKer_add (N : ℕ) (a b : ℤ) : dftKer N (a + b) = dftKer N a * dftKer N b := by
  unfold dftKer
  rw [← Complex.exp_add]
  congr 1
  push_cast
  ring

theorem dftKer_pow (N : ℕ) (a : ℤ) (k : ℕ) : dftKer N ((k : ℤ) * a) = dftKer N a ^ k := by
  unfold dftKer
  rw [← Complex.exp_nat_mul]
  congr 1
  push_cast
  ring

theorem two_pi_I_ne_zero : (2 * (Real.pi : ℂ) * Complex.I) ≠ 0 := by
  have hpi : ((Real.pi : ℝ) : ℂ) ≠ 0 := Complex.ofReal_ne_zero.mpr Real.pi_ne_zero
  exact mul_ne_zero (mul_ne_zero two_ne_zero hpi) Complex.I_ne_zero

theorem dftKer_eq_one_iff (N : ℕ) (hN : 0 < N) (a : ℤ) :
    dftKer N a = 1 ↔ (N : ℤ) ∣ a := by
  have hNz : ((N : ℂ)) ≠ 0 := Nat.cast_ne_zero.mpr hN.ne'
  unfold dftKer
  rw [Complex.exp_eq_one_iff]
  constructor
  · rintro ⟨n, hn⟩
    have key : (2 * (Real.pi : ℂ) * Complex.I) * (a : ℂ) =
        (2 * (Real.pi : ℂ) * Complex.I) * ((n : ℂ) * N) := by
      field_simp at hn
      linear_combination hn
    have ha : (a : ℂ) = (n : ℂ) * N := mul_left_cancel₀ two_pi_I_ne_zero key
    have ha' : a = n * N := by exact_mod_cast ha
    exact ⟨n, by rw [ha']; ring⟩
  · rintro ⟨c, rfl⟩
    refine ⟨c, ?_⟩
    push_cast
    field_simp
    ring

theorem sum_dftKer (N : ℕ) (hN : 0 < N) (d : ℤ) :
    ∑ k in Finset.range N, dftKer N ((k : ℤ) * d) = if (N : ℤ) ∣ d then (N : ℂ) else 0 := by
  rw [Finset.sum_congr rfl fun k _ => dftKer_pow N d k]
  by_cases h : (N : ℤ) ∣ d
  · rw [if_pos h, (dftKer_eq_one_iff N hN d).mpr h]
    simp
  · rw [if_neg h]
    have hz : dftKer N d ≠ 1 := fun e => h ((dftKer_eq_one_iff N hN d).mp e)
    rw [geom_sum_eq hz]
    have hNp : dftKer N d ^ N = 1 := by
      rw [← dftKer_pow]
      exact (dftKer_eq_one_iff N hN _).mpr ⟨d, rfl⟩
    rw [hNp]
    simp

theorem sum_dftKer_delta (N : ℕ) (hN : 0 < N) (m p : ℕ) (hm : m < N) (hp : p < N) :
    ∑ k in Finset.range N, dftKer N ((k : ℤ) * ((m : ℤ) - p)) = if p = m then (N : ℂ) else 0 := by
  rw [sum_dftKer N hN]
  by_cases hpm : p = m
  · subst hpm
    rw [if_pos rfl, if_pos (by simp)]
  · rw [if_neg hpm, if_neg ?_]
    rintro ⟨c, hc⟩
    have hm' : (m : ℤ) < N := by exact_mod_cast hm
    have hp' : (p : ℤ) < N := by exact_mod_cast hp
    have hm0 : (0 : ℤ) ≤ m := Int.natCast_nonneg m
    have hp0 : (0 : ℤ) ≤ p := Int.natCast_nonneg p
    have hN' : (0 : ℤ) < N := by exact_mod_cast hN
    rcases lt_trichotomy c 0 with hc0 | hc0 | hc0
    · have hle : (N : ℤ) * c ≤ (N : ℤ) * (-1) :=
        mul_le_mul_of_nonneg_left (by omega) hN'.le
      rw [← hc] at hle
      apply hpm
      omega
    · subst hc0
      rw [mul_zero] at hc
      exact absurd (by omega : p = m) hpm
    · have hle : (N : ℤ) * 1 ≤ (N : ℤ) * c :=
        mul_le_mul_of_nonneg_left (by omega) hN'.le
      rw [← hc] at hle
      apply hpm
      omega

theorem dft1_inv (N : ℕ) (hN : 0 < N) (g : ℕ → ℂ) (m : ℕ) (hm : m < N) :
    ∑ k in Finset.range N,
      (∑ p in Finset.range N, g p * dftKer N (-((k : ℤ) * p))) * dftKer N ((k : ℤ) * m) =
      (N : ℂ) * g m := by
  have step1 : ∀ k ∈ Finset.range N,
      (∑ p in Finset.range N, g p * dftKer N (-((k : ℤ) * p))) * dftKer N ((k : ℤ) * m) =
      ∑ p in Finset.range N, g p * dftKer N ((k : ℤ) * ((m : ℤ) - p)) := by
    intro k _
    rw [Finset.sum_mul]
    refine Finset.sum_congr rfl fun p _ => ?_
    rw [mul_assoc, ← dftKer_add]
    congr 1
    ring
  rw [Finset.sum_congr rfl step1, Finset.sum_comm]
  have step2 : ∀ p ∈ Finset.range N,
      (∑ k in Finset.range N, g p * dftKer N ((k : ℤ) * ((m : ℤ) - p))) =
      if p = m then g p * N else 0 := by
    intro p hp
    rw [← Finset.mul_sum, sum_dftKer_delta N hN m p hm (Finset.mem_range.mp hp)]
    split_ifs with h
    · rfl
    · rw [mul_zero]
  rw [Finset.sum_congr rfl step2,
    Finset.sum_ite_eq' (Finset.range N) m (fun p => g p * N), if_pos (Finset.mem_range.mpr hm)]
  ring

theorem ifft2_fft2 (h w : ℕ) (hh : 0 < h) (hw : 0 < w) (f : ℕ → ℕ → ℂ)
    (m n : ℕ) (hm : m < h) (hn : n < w) :
    ifft2 h w (fft2 h w f) m n = f m n := by
  unfold ifft2
  have hsep : ∀ k l : ℕ, fft2 h w f k l =
      ∑ p in Finset.range h,
        (∑ q in Finset.range w, f p q * dftKer w (-((l : ℤ) * q))) * dftKer h (-((k : ℤ) * p)) := by
    intro k l
    unfold fft2
    refine Finset.sum_congr rfl fun p _ => ?_
    rw [Finset.sum_mul]
    refine Finset.sum_congr rfl fun q _ => ?_
    ring
  have hswap : ∑ k in Finset.range h, ∑ l in Finset.range w,
      fft2 h w f k l * dftKer h ((k : ℤ) * m) * dftKer w ((l : ℤ) * n) =
      ∑ l in Finset.range w, (∑ k in Finset.range h,
        fft2 h w f k l * dftKer h ((k : ℤ) * m)) * dftKer w ((l : ℤ) * n) := by
    rw [Finset.sum_comm]
    refine Finset.sum_congr rfl fun l _ => ?_
    rw [Finset.sum_mul]
  rw [hswap]
  have hinner : ∀ l ∈ Finset.range w,
      (∑ k in Finset.range h, fft2 h w f k l * dftKer h ((k : ℤ) * m)) * dftKer w ((l : ℤ) * n) =
      ((h : ℂ) * ∑ q in Finset.range w, f m q * dftKer w (-((l : ℤ) * q))) *
        dftKer w ((l : ℤ) * n) := by
    intro l _
    congr 1
    rw [Finset.sum_congr rfl fun k _ => by rw [hsep k l]]
    exact dft1_inv h hh (fun p => ∑ q in Finset.range w, f p q * dftKer w (-((l : ℤ) * q))) m hm
  rw [Finset.sum_congr rfl hinner]
  have hfin : ∑ l in Finset.range w,
      ((h : ℂ) * ∑ q in Finset.range w, f m q * dftKer w (-((l : ℤ) * q))) *
        dftKer w ((l : ℤ) * n) =
      (h : ℂ) * ∑ l in Finset.range w,
        (∑ q in Finset.range w, f m q * dftKer w (-((l : ℤ) * q))) * dftKer w ((l : ℤ) * n) := by
    rw [Finset.mul_sum]
    refine Finset.sum_congr rfl fun l _ => ?_
    ring
  rw [hfin, dft1_inv w hw (fun q => f m q) n hn]
  have hhz : ((h : ℂ)) ≠ 0 := Nat.cast_ne_zero.mpr hh.ne'
  have hwz : ((w : ℂ)) ≠ 0 := Nat.cast_ne_zero.mpr hw.ne'
  field_simp
  ring

theorem shift_cancel {α : Type} (h w : ℕ) (F : ℕ → ℕ → α) (i j : ℕ)
    (hi : i < h) (hj : j < w) :
    ifftshift2 h w (fftshift2 h w F) i j = F i j := by
  unfold ifftshift2 fftshift2
  congr 1
  · rw [Nat.mod_add_mod, show i + h / 2 + (h - h / 2) = i + h by omega,
      Nat.add_mod_right, Nat.mod_eq_of_lt hi]
  · rw [Nat.mod_add_mod, show j + w / 2 + (w - w / 2) = j + w by omega,
      Nat.add_mod_right, Nat.mod_eq_of_lt hj]

theorem ifft2_add_apply (h w : ℕ) (A B : ℕ → ℕ → ℂ) (m n : ℕ) :
    ifft2 h w A m n + ifft2 h w B m n = ifft2 h w (fun k l => A k l + B k l) m n := by
  unfold ifft2
  rw [← mul_add, ← Finset.sum_add_distrib]
  congr 1
  refine Finset.sum_congr rfl fun k _ => ?_
  rw [← Finset.sum_add_distrib]
  refine Finset.sum_congr rfl fun l _ => ?_
  ring

theorem ifft2_congr (h w : ℕ) (A B : ℕ → ℕ → ℂ) (m n : ℕ)
    (hAB : ∀ k, k < h → ∀ l, l < w → A k l = B k l) :
    ifft2 h w A m n = ifft2 h w B m n := by
  unfold ifft2
  congr 1
  refine Finset.sum_congr rfl fun k hk => ?_
  refine Finset.sum_congr rfl fun l hl => ?_
  rw [hAB k (Finset.mem_range.mp hk) l (Finset.mem_range.mp hl)]

/-! # Claim theorems: FrequencyFilter and SpectrumComputer -/

/-- C4 amended: before clipping and integer truncation, the two filter
outputs for a mask and its complement `1 - mask` sum, pixel for pixel,
exactly to the original image (transform linearity + mask complementarity +
Fourier inversion). -/
theorem filter_partition (img : GrayImage) (mask : ℕ → ℕ → ℝ) (m n : ℕ)
    (hm : m < img.h) (hn : n < img.w) :
    filterPre img mask m n + filterPre img (fun y x => 1 - mask y x) m n =
      (img.pix m n : ℝ) := by
  unfold filterPre
  simp only []
  set F := fft2 img.h img.w (signal img) with hFdef
  set Fs := fftshift2 img.h img.w F with hFs
  set Afun := fun k l : ℕ => Fs k l * ((mask k l : ℝ) : ℂ) with hAfun
  set Bfun := fun k l : ℕ => Fs k l * ((1 - mask k l : ℝ) : ℂ) with hBfun
  have hcomb : ∀ a b : ℝ, a * 255 + b * 255 = (a + b) * 255 := fun a b => by ring
  rw [hcomb, ← Complex.add_re, ifft2_add_apply]
  have hpt : ∀ k, k < img.h → ∀ l, l < img.w →
      (fun k l => ifftshift2 img.h img.w Afun k l + ifftshift2 img.h img.w Bfun k l) k l
        = F k l := by
    intro k hk l hl
    have hq : ∀ p q : ℕ, Afun p q + Bfun p q = Fs p q := by
      intro p q
      rw [hAfun, hBfun]
      push_cast
      ring
    show Afun ((k + img.h / 2) % img.h) ((l + img.w / 2) % img.w) +
        Bfun ((k + img.h / 2) % img.h) ((l + img.w / 2) % img.w) = F k l
    rw [hq]
    exact shift_cancel img.h img.w F k l hk hl
  rw [ifft2_congr img.h img.w _ F m n hpt, hFdef,
    ifft2_fft2 img.h img.w img.hpos img.wpos (signal img) m n hm hn]
  show (((img.pix m n : ℝ) / 255 : ℝ) : ℂ).re * 255 = (img.pix m n : ℝ)
  rw [Complex.ofReal_re, div_mul_cancel₀ _ (by norm_num : (255 : ℝ) ≠ 0)]

/-- C4 witness: the exact pre-quantization partition at a concrete pixel of a
concrete image and mask. -/
theorem filter_partition_witness :
    filterPre img4 (numpy_low_pass_mask 1 4 (1 / 5) (1 / 10)) 0 1 +
      filterPre img4 (fun y x => 1 - numpy_low_pass_mask 1 4 (1 / 5) (1 / 10) y x) 0 1 =
      (img4.pix 0 1 : ℝ) :=
  filter_partition img4 (numpy_low_pass_mask 1 4 (1 / 5) (1 / 10)) 0 1
    (by norm_num [img4]) (by norm_num [img4])

/-- C9: spectrum and filter outputs have exactly the dimensions of the input
image. -/
theorem dims_preserved (img : GrayImage) (mask : ℕ → ℕ → ℝ) :
    (numpy_spectrum img).h = img.h ∧ (numpy_spectrum img).w = img.w ∧
    (numpy_filter img mask).h = img.h ∧ (numpy_filter img mask).w = img.w :=
  ⟨rfl, rfl, rfl, rfl⟩

theorem fft2_zero_of_zero (h w : ℕ) (f : ℕ → ℕ → ℂ) (hf : ∀ i j, f i j = 0) (k l : ℕ) :
    fft2 h w f k l = 0 := by
  unfold fft2
  rw [Finset.sum_eq_zero]
  intro m _
  rw [Finset.sum_eq_zero]
  intro n _
  rw [hf m n, zero_mul, zero_mul]

theorem signal_img0 (i j : ℕ) : signal img0 i j = 0 := by
  unfold signal img0
  norm_num

theorem spectrumMag_img0 (k l : ℕ) : spectrumMag img0 k l = 0 := by
  unfold spectrumMag
  have hz : fftshift2 img0.h img0.w (fft2 img0.h img0.w (signal img0)) k l = 0 := by
    unfold fftshift2
    exact fft2_zero_of_zero _ _ _ signal_img0 _ _
  rw [hz]
  simp [Real.log_one]

theorem spectrumMax_img0 : spectrumMax img0 = 0 := by
  unfold spectrumMax
  apply le_antisymm
  · apply Finset.sup'_le
    intro p _
    rw [spectrumMag_img0]
  · have h00 : ((0, 0) : ℕ × ℕ) ∈ (Finset.range img0.h) ×ˢ (Finset.range img0.w) := by decide
    calc (0 : ℝ) = spectrumMag img0 0 0 := (spectrumMag_img0 0 0).symm
    _ ≤ _ := Finset.le_sup' (fun p : ℕ × ℕ => spectrumMag img0 p.1 p.2) h00

/-- C1: on the all-zero image the log-magnitude maximum is zero and the
normalization `magnitude / magnitude.max()` divides by zero with no guard,
so the spectrum pixel is a non-finite float (`none`), not the value `0` the
claim requires. -/
theorem spectrum_allzero_nan : (numpy_spectrum img0).pix 0 0 = none := by
  show (npDiv (spectrumMag img0 0 0) (spectrumMax img0)).map (fun t => ⌊t * 255⌋₊) = none
  rw [spectrumMax_img0]
  unfold npDiv
  rw [if_pos rfl]
  rfl

/-! # Concrete evaluation of the quantized filter pipeline on `img4` -/

theorem dftKer_four_one : dftKer 4 1 = Complex.I := by
  unfold dftKer
  rw [show (2 * (Real.pi : ℂ) * Complex.I * ((1 : ℤ) : ℂ) / ((4 : ℕ) : ℂ)) =
      ((Real.pi / 2 : ℝ) : ℂ) * Complex.I by push_cast; ring]
  rw [Complex.exp_mul_I, ← Complex.ofReal_cos, ← Complex.ofReal_sin,
    Real.cos_pi_div_two, Real.sin_pi_div_two]
  norm_num

theorem dftKer_four_two : dftKer 4 2 = -1 := by
  unfold dftKer
  rw [show (2 * (Real.pi : ℂ) * Complex.I * ((2 : ℤ) : ℂ) / ((4 : ℕ) : ℂ)) =
      ((Real.pi : ℝ) : ℂ) * Complex.I by push_cast; ring]
  exact Complex.exp_pi_mul_I

theorem dftKer_four_three : dftKer 4 3 = -Complex.I := by
  rw [show (3 : ℤ) = 1 + 2 by norm_num, dftKer_add, dftKer_four_one, dftKer_four_two]
  ring

theorem rin_sq_img4 : r_in 1 4 (1 / 5) (1 / 10) ^ 2 = 153 / 400 := by
  rw [rin_sq, show max (0 : ℝ) (1 / 5 - 1 / 10 / 2) = 3 / 20 by norm_num]
  norm_num

theorem rout_sq_img4 : r_out 1 4 (1 / 5) (1 / 10) ^ 2 = 17 / 16 := by
  rw [rout_sq]
  norm_num

theorem d2_img4 (x : ℕ) : d2 1 4 0 x = ((x : ℝ) - 3 / 2) ^ 2 := by
  unfold d2
  norm_num

theorem lp4_0 : numpy_low_pass_mask 1 4 (1 / 5) (1 / 10) 0 0 = 0 := by
  refine maskVal_of_outer ?_ ?_
  · rw [rin_sq_img4, d2_img4]; norm_num
  · rw [rout_sq_img4, d2_img4]; norm_num

theorem lp4_1 : numpy_low_pass_mask 1 4 (1 / 5) (1 / 10) 0 1 = 1 := by
  refine maskVal_of_inner ?_
  rw [rin_sq_img4, d2_img4]; norm_num

theorem lp4_2 : numpy_low_pass_mask 1 4 (1 / 5) (1 / 10) 0 2 = 1 := by
  refine maskVal_of_inner ?_
  rw [rin_sq_img4, d2_img4]; norm_num

theorem lp4_3 : numpy_low_pass_mask 1 4 (1 / 5) (1 / 10) 0 3 = 0 := by
  refine maskVal_of_outer ?_ ?_
  · rw [rin_sq_img4, d2_img4]; norm_num
  · rw [rout_sq_img4, d2_img4]; norm_num

theorem fft2_img4 (k l : ℕ) : fft2 1 4 (signal img4) k l = 1 := by
  have h0 : signal img4 0 0 = 1 := by unfold signal img4; norm_num
  have h1 : signal img4 0 1 = 0 := by unfold signal img4; norm_num
  have h2 : signal img4 0 2 = 0 := by unfold signal img4; norm_num
  have h3 : signal img4 0 3 = 0 := by unfold signal img4; norm_num
  unfold fft2
  simp [Finset.sum_range_succ, h0, h1, h2, h3, dftKer_zero]

theorem img4_h : img4.h = 1 := rfl

theorem img4_w : img4.w = 4 := rfl

theorem filterPre_lp_img4 :
    filterPre img4 (numpy_low_pass_mask 1 4 (1 / 5) (1 / 10)) 0 1 = 255 / 4 := by
  unfold filterPre ifft2 ifftshift2 fftshift2
  simp only [img4_h, img4_w]
  simp only [Finset.sum_range_succ, Finset.sum_range_zero]
  norm_num [fft2_img4, lp4_0, lp4_1, lp4_2, lp4_3,
    dftKer_zero, dftKer_four_one, dftKer_four_two, dftKer_four_three]

theorem hp4_0 : numpy_high_pass_mask 1 4 (1 / 5) (1 / 10) 0 0 = 1 := by
  unfold numpy_high_pass_mask
  rw [lp4_0]
  norm_num

theorem hp4_1 : numpy_high_pass_mask 1 4 (1 / 5) (1 / 10) 0 1 = 0 := by
  unfold numpy_high_pass_mask
  rw [lp4_1]
  norm_num

theorem hp4_2 : numpy_high_pass_mask 1 4 (1 / 5) (1 / 10) 0 2 = 0 := by
  unfold numpy_high_pass_mask
  rw [lp4_2]
  norm_num

theorem hp4_3 : numpy_high_pass_mask 1 4 (1 / 5) (1 / 10) 0 3 = 1 := by
  unfold numpy_high_pass_mask
  rw [lp4_3]
  norm_num

theorem filterPre_hp_img4 :
    filterPre img4 (numpy_high_pass_mask 1 4 (1 / 5) (1 / 10)) 0 1 = -(255 / 4) := by
  unfold filterPre ifft2 ifftshift2 fftshift2
  simp only [img4_h, img4_w]
  simp only [Finset.sum_range_succ, Finset.sum_range_zero]
  norm_num [fft2_img4, hp4_0, hp4_1, hp4_2, hp4_3,
    dftKer_zero, dftKer_four_one, dftKer_four_two, dftKer_four_three]

theorem lp_pix_img4 :
    (numpy_filter img4 (numpy_low_pass_mask 1 4 (1 / 5) (1 / 10))).pix 0 1 = 63 := by
  show ⌊min (max (filterPre img4 (numpy_low_pass_mask 1 4 (1 / 5) (1 / 10)) 0 1) 0) 255⌋₊ = 63
  rw [filterPre_lp_img4,
    show max (255 / 4 : ℝ) 0 = 255 / 4 from max_eq_left (by norm_num),
    show min (255 / 4 : ℝ) 255 = 255 / 4 from min_eq_left (by norm_num),
    Nat.floor_eq_iff (by norm_num : (0 : ℝ) ≤ 255 / 4)]
  norm_num

theorem hp_pix_img4 :
    (numpy_filter img4 (numpy_high_pass_mask 1 4 (1 / 5) (1 / 10))).pix 0 1 = 0 := by
  show ⌊min (max (filterPre img4 (numpy_high_pass_mask 1 4 (1 / 5) (1 / 10)) 0 1) 0) 255⌋₊ = 0
  rw [filterPre_hp_img4,
    show max (-(255 / 4) : ℝ) 0 = 0 from max_eq_right (by norm_num),
    show min (0 : ℝ) 255 = 0 from min_eq_left (by norm_num)]
  exact Nat.floor_zero

/-- C4 counterexample: on the 1×4 image `[255, 0, 0, 0]` with
`cutoff = 1/5`, `smoothing = 1/10`, the quantized low-pass and high-pass
outputs at pixel `(0,1)` sum to `63`, while the original pixel is `0` — the
deviation of 63 gray levels refutes the claim for the clipped, truncated
output images. -/
theorem partition_quantized_cex :
    (numpy_filter img4 (numpy_low_pass_mask 1 4 (1 / 5) (1 / 10))).pix 0 1 +
      (numpy_filter img4 (numpy_high_pass_mask 1 4 (1 / 5) (1 / 10))).pix 0 1 = 63 ∧
    img4.pix 0 1 = 0 := by
  refine ⟨?_, by decide⟩
  rw [lp_pix_img4, hp_pix_img4]

end FreqShow
